import Mathlib

/-!
Shallow embedding of `src/at_stop_corona_dump.py`, the temporal event-extraction
script for exposure-notification key snapshots, together with theorems checking
the natural-language specification against it.

Modelling conventions:
* Python `datetime` values are modelled as `Int` timestamps in seconds
  (`timedelta(days=8)` becomes `8 * 86400` seconds); `TEK.dt` (which is
  `utcfromtimestamp(interval*600)`) becomes `interval * 600`.
* Python byte strings are modelled as `List Nat`.
* Python sets are modelled as lists together with membership checks; `set.add`
  on `revoked_keys` is `setAdd` (a no-op when the element is present), and the
  guarded `all_keys.add` in the ADD loop appends a fresh element.
* Python dicts (`added_when`) are association lists where assignment conses a
  new binding (shadowing any older one) and lookup takes the newest binding.
* Fallible operations return `Option`: a `KeyError` on `added_when[key]` and
  the `TypeError` of `set(prev_keys)` when `prev_keys is None` are `none`.
* Python's `list.sort` is a stable sort by a key tuple; it is modelled by
  `List.insertionSort` with the (total, transitive) key comparison, which is
  also stable, so the two agree wherever the key tuples decide the order.
-/

/-- A temporary exposure key (class `TEK`, lines 13-32 of the source): opaque
key material plus start interval (10-minute ticks), risk level and validity
period. Identity is structural equality of all four fields. -/
structure TEK where
  data : List Nat
  interval : Int
  level : Int
  period : Int
deriving DecidableEq, Repr

/-- The key's start time `TEK.dt` as seconds since the epoch:
`datetime.utcfromtimestamp(self.interval*600)` (line 23). -/
def TEK.dtSec (k : TEK) : Int := k.interval * 600

/-- The three event dataclasses of the source (lines 72-96): `AddedEvent`
carries the `changed` flag, `RevokedEvent` and `AutoRemovedEvent` carry the
timestamp at which the key was first added. -/
inductive Event where
  | AddedEvent (key : TEK) (dt : Int) (changed : Bool)
  | RevokedEvent (key : TEK) (dt : Int) (added_dt : Int)
  | AutoRemovedEvent (key : TEK) (dt : Int) (added_dt : Int)
deriving DecidableEq, Repr

/-- The subject key of an event. -/
def Event.key : Event → TEK
  | .AddedEvent k _ _ => k
  | .RevokedEvent k _ _ => k
  | .AutoRemovedEvent k _ _ => k

/-- The timestamp at which the event was detected. -/
def Event.dt : Event → Int
  | .AddedEvent _ d _ => d
  | .RevokedEvent _ d _ => d
  | .AutoRemovedEvent _ d _ => d

/-- Test for the `AddedEvent` variant. -/
def Event.isAdd : Event → Bool
  | .AddedEvent _ _ _ => true
  | _ => false

/-- Test for a departure variant (`RevokedEvent` or `AutoRemovedEvent`). -/
def Event.isRemoval : Event → Bool
  | .AddedEvent _ _ _ => false
  | _ => true

/-- Test for an `AddedEvent` whose subject is the key `k`. -/
def isAddOf (k : TEK) (e : Event) : Bool := e.isAdd && decide (e.key = k)

/-- Test for a departure event whose subject is the key `k`. -/
def isRemovalOf (k : TEK) (e : Event) : Bool := e.isRemoval && decide (e.key = k)

/-- The result of Python's `str(type(e))` for each event class, used as the
second component of the sort key on line 175. -/
def Event.typeStr : Event → String
  | .AddedEvent .. => "<class \x27__main__.AddedEvent\x27>"
  | .RevokedEvent .. => "<class \x27__main__.RevokedEvent\x27>"
  | .AutoRemovedEvent .. => "<class \x27__main__.AutoRemovedEvent\x27>"

/-- The mutable state of the extraction walk (lines 107-120): the live set
`all_keys`, the set `revoked_keys`, the dict `added_when`, the accumulated
`events`, the previous archive's keys and timestamp (set together, `None`
before the first archive) and the list `dts` of archive timestamps. -/
structure ExtState where
  all_keys : List TEK
  revoked_keys : List TEK
  added_when : List (TEK × Int)
  events : List Event
  prev : Option (List TEK × Int)
  dts : List Int
deriving DecidableEq, Repr

/-- The initial state: every container empty, no previous archive. -/
def initState : ExtState :=
  { all_keys := [], revoked_keys := [], added_when := [], events := [],
    prev := none, dts := [] }

/-- Lookup in the `added_when` dict: the newest binding for the key wins,
`none` when the key is absent (Python would raise `KeyError`). -/
def lookupWhen : List (TEK × Int) → TEK → Option Int
  | [], _ => none
  | p :: rest, k => if p.1 = k then some p.2 else lookupWhen rest k

/-- Python `set.add`: a no-op when the element is already present. -/
def setAdd (s : List TEK) (k : TEK) : List TEK := if k ∈ s then s else s ++ [k]

/-- The sort key `1000 * key.level + key.interval` used for the intersection
list on lines 135 and 163. -/
def interKeyLe (a b : TEK) : Prop :=
  1000 * a.level + a.interval ≤ 1000 * b.level + b.interval

instance : DecidableRel interKeyLe := fun a b =>
  inferInstanceAs (Decidable (1000 * a.level + a.interval ≤ 1000 * b.level + b.interval))

/-- Stable sort of the intersection list by `1000 * level + interval`. -/
def sortInter (l : List TEK) : List TEK := List.insertionSort interKeyLe l

/-- Lines 134-135 (and 162-163): `inter = list(set(now_keys) & set(prev_keys))`
followed by the sort. Set intersection is membership filtering plus
deduplication; the iteration order of a Python set is arbitrary, and only the
sort key constrains the order of the result. -/
def computeInter (now_keys prev_keys : List TEK) : List TEK :=
  sortInter ((now_keys.filter (fun k => decide (k ∈ prev_keys))).dedup)

/-- The grace window `timedelta(days=8)` of line 149, in seconds. -/
def graceWindow : Int := 8 * 86400

/-- One iteration of the ADD loop (lines 138-143): if the key is not yet in
`all_keys`, record `added_when[key] = prev_dt`, compute the `changed` flag by
scanning `all_keys` for identical key data, emit `AddedEvent` and insert the
key into `all_keys`. -/
def processAdd (st : ExtState) (prev_dt : Int) (key : TEK) : ExtState :=
  if key ∈ st.all_keys then st
  else
    { st with
      added_when := (key, prev_dt) :: st.added_when,
      events := st.events ++
        [.AddedEvent key prev_dt (st.all_keys.any (fun o => decide (key.data = o.data)))],
      all_keys := st.all_keys ++ [key] }

/-- The ADD loop of a transition: lines 137-143. -/
def addLoop (inter : List TEK) (prev_dt : Int) (st : ExtState) : ExtState :=
  inter.foldl (fun s k => processAdd s prev_dt k) st

/-- One iteration of the REVOKE/AUTO_REMOVE loop (lines 146-154): keys still in
the intersection are skipped; otherwise the age `dt - key.dt` decides between
`RevokedEvent` (inserting into `revoked_keys`) and `AutoRemovedEvent`, and the
key is removed from `all_keys` either way. A missing `added_when` entry is the
`KeyError` case, modelled as `none`. -/
def processDeparture (inter : List TEK) (dt : Int) (st : ExtState) (key : TEK) :
    Option ExtState :=
  if key ∈ inter then some st
  else
    match lookupWhen st.added_when key with
    | none => none
    | some added_dt =>
      if dt - key.dtSec ≤ graceWindow then
        some { st with
          events := st.events ++ [.RevokedEvent key dt added_dt],
          revoked_keys := setAdd st.revoked_keys key,
          all_keys := st.all_keys.erase key }
      else
        some { st with
          events := st.events ++ [.AutoRemovedEvent key dt added_dt],
          all_keys := st.all_keys.erase key }

/-- The departure loop of a transition (lines 146-154): it iterates over a
snapshot `list(all_keys)` of the live set taken before the loop starts. -/
def departureLoop (inter : List TEK) (dt : Int) (st : ExtState) : Option ExtState :=
  st.all_keys.foldlM (processDeparture inter dt) st

/-- Processing of one archive in the main walk (lines 123-157): append the
timestamp to `dts`; on the first archive just record it as the previous one;
otherwise intersect with the previous keys, run the ADD loop, then the
departure loop, and finally shift the previous-archive registers. -/
def processArchive (st : ExtState) (snap : Int × List TEK) : Option ExtState :=
  let dt := snap.1
  let now_keys := snap.2
  let st1 := { st with dts := st.dts ++ [dt] }
  match st1.prev with
  | none => some { st1 with prev := some (now_keys, dt) }
  | some (prev_keys, prev_dt) =>
    let inter := computeInter now_keys prev_keys
    let st2 := addLoop inter prev_dt st1
    match departureLoop inter dt st2 with
    | none => none
    | some st3 => some { st3 with prev := some (now_keys, dt) }

/-- The walk over all regular archives (the `for archive in archives` loop). -/
def walkArchives (snaps : List (Int × List TEK)) : Option ExtState :=
  snaps.foldlM processArchive initState

/-- The terminal add-only pass against the supplementary archive
(lines 159-169). When no regular archive was processed, `prev_keys` is still
`None` and `set(prev_keys)` raises, modelled as `none`. -/
def terminalPass (st : ExtState) (supp_keys : List TEK) : Option ExtState :=
  match st.prev with
  | none => none
  | some (prev_keys, prev_dt) =>
    some (addLoop (computeInter supp_keys prev_keys) prev_dt st)

/-- The whole extractor: the walk followed by the terminal add-only pass.
Input: the ordered snapshots (timestamp, keys) and the supplementary key set. -/
def runExtractor (snaps : List (Int × List TEK)) (supp_keys : List TEK) :
    Option ExtState :=
  match walkArchives snaps with
  | none => none
  | some st => terminalPass st supp_keys

/-- The sort key of line 175: the lexicographic tuple
`(e.dt, str(type(e)), e.key.level, e.key.dt)`. -/
def eventSortKey (e : Event) : Int ×ₗ (String ×ₗ (Int ×ₗ Int)) :=
  toLex (e.dt, toLex (e.typeStr, toLex (e.key.level, e.key.dtSec)))

/-- Comparison of two events by their sort key tuples, exactly as Python
compares the key tuples of line 175. -/
def eventLe (a b : Event) : Prop := eventSortKey a ≤ eventSortKey b

instance : DecidableRel eventLe := fun a b =>
  inferInstanceAs (Decidable (eventSortKey a ≤ eventSortKey b))

instance : IsTotal Event eventLe := ⟨fun a b => le_total (eventSortKey a) (eventSortKey b)⟩

instance : IsTrans Event eventLe := ⟨fun _ _ _ h1 h2 => le_trans h1 h2⟩

/-- Line 175: `events.sort(key=lambda e: (e.dt, str(type(e)), e.key.level, e.key.dt))`,
a stable sort by the key tuple. -/
def sortEvents (es : List Event) : List Event := List.insertionSort eventLe es

/-- The bucket increment an event contributes to the diagnosis tally
(lines 192-197): an `AddedEvent` whose key has `level == 5` and is not in
`revoked_keys` contributes one count to the bucket `key.interval`. -/
def diagIncrement (revoked_keys : List TEK) (e : Event) : Option Int :=
  match e with
  | .AddedEvent key _ _ =>
    if key.level = 5 ∧ key ∉ revoked_keys then some key.interval else none
  | _ => none

/-- The bucket increments produced while handling one snapshot timestamp
(lines 182 and 186-197): the events are filtered by `e.dt == dt` and each
qualifying `AddedEvent` increments its bucket. -/
def daysCountIncs (events : List Event) (revoked_keys : List TEK) (dt : Int) :
    List Int :=
  (events.filter (fun e => decide (e.dt = dt))).filterMap (diagIncrement revoked_keys)

/-- All increments applied to the dict `tot_days_count` over the whole output
loop `for dt in dts` (lines 180-197), in order. -/
def totDaysCountIncs (events : List Event) (revoked_keys : List TEK)
    (dts : List Int) : List Int :=
  dts.foldl (fun acc dt => acc ++ daysCountIncs events revoked_keys dt) []

/-- The value of `tot_days_count[bucket]` after the output loop: the
`defaultdict(int)` holds the number of increments applied to each bucket. -/
def totDaysCount (events : List Event) (revoked_keys : List TEK) (dts : List Int)
    (bucket : Int) : Nat :=
  (totDaysCountIncs events revoked_keys dts).count bucket

/-- Python `max(d.values())` for a `defaultdict(int)` described by its list of
increments: the maximum count over the touched buckets, `none` (a raised
`ValueError`) when the dict is empty. -/
def maxValues (incs : List Int) : Option Nat :=
  (incs.dedup.map (fun b => incs.count b)).max?

/-- The headline statistic of line 213: `max(tot_days_count.values())`. -/
def headline (events : List Event) (revoked_keys : List TEK) (dts : List Int) :
    Option Nat :=
  maxValues (totDaysCountIncs events revoked_keys dts)

/-- The per-snapshot `At least N people diagnosed` figure (lines 185-205):
`none` when `days_count` is empty (the `if days_count:` guard skips the line),
otherwise `max(days_count.values())`. -/
def perSnapshotDiagnosed (events : List Event) (revoked_keys : List TEK)
    (dt : Int) : Option Nat :=
  let incs := daysCountIncs events revoked_keys dt
  if incs = [] then none else maxValues incs

/-- The final displayed event list: the extractor's events sorted by the key
tuple of line 175. -/
def pipelineEvents (snaps : List (Int × List TEK)) (supp_keys : List TEK) :
    Option (List Event) :=
  (runExtractor snaps supp_keys).map (fun st => sortEvents st.events)

/-- The headline statistic of the whole program on the given input: `none`
when the extractor itself fails, otherwise the (possibly failing) maximum of
`tot_days_count.values()` computed from the sorted events. -/
def pipelineHeadline (snaps : List (Int × List TEK)) (supp_keys : List TEK) :
    Option (Option Nat) :=
  (runExtractor snaps supp_keys).map
    (fun st => headline (sortEvents st.events) st.revoked_keys st.dts)

/-- Count, directly in the words of the specification, of the `Added` events
whose key has `level == 5`, was never revoked in the run, and whose start
interval is the given bucket. Used to compare the tally of lines 192-197
against the specified value. -/
def specDiagCount (events : List Event) (revoked_keys : List TEK) (bucket : Int) :
    Nat :=
  (events.filter (fun e =>
    match e with
    | .AddedEvent key _ _ =>
      decide (key.level = 5 ∧ key ∉ revoked_keys ∧ key.interval = bucket)
    | _ => false)).length

/-- Number of `AddedEvent`s for key `k` since the last departure event for `k`,
scanning the trace from the most recent event backwards; the argument list is
the reversed trace. -/
def openAddsRev : List Event → TEK → Nat
  | [], _ => 0
  | e :: rest, k =>
    if isRemovalOf k e then 0
    else if isAddOf k e then openAddsRev rest k + 1
    else openAddsRev rest k

/-- Number of `AddedEvent`s for key `k` in the trace after the last departure
event for `k` (the whole trace when `k` never departed). -/
def openAdds (es : List Event) (k : TEK) : Nat := openAddsRev es.reverse k

/-- A trace in which no key has two `AddedEvent`s without a departure event for
the same key in between. -/
def GoodTrace (es : List Event) : Prop :=
  ∀ (k : TEK) (p mid s : List Event) (e1 e2 : Event),
    es = p ++ e1 :: (mid ++ e2 :: s) →
    isAddOf k e1 = true → isAddOf k e2 = true →
    ∃ r ∈ mid, isRemovalOf k r = true

/-- The inductive invariant of the extraction walk: the live set holds no
duplicates, every live key has an `added_when` binding, a key is live exactly
when it has one open (unremoved) `AddedEvent` in the trace, and no key has two
`AddedEvent`s without a departure event in between. -/
def WalkInv (st : ExtState) : Prop :=
  st.all_keys.Nodup ∧
  (∀ k ∈ st.all_keys, (lookupWhen st.added_when k).isSome = true) ∧
  (∀ k, openAdds st.events k = if k ∈ st.all_keys then 1 else 0) ∧
  GoodTrace st.events

/-! ### Concrete inputs used in witnesses and counterexamples -/

/-- A level-5 key starting at interval 0. -/
def tekA : TEK := ⟨[1], 0, 5, 144⟩

/-- A key with the same data as `tekA` but a different start interval. -/
def tekB : TEK := ⟨[1], 1, 5, 144⟩

/-- A level-2 key. -/
def tekC : TEK := ⟨[2], 0, 2, 144⟩

/-! ### Helper lemmas about traces -/


theorem isRemovalOf_eq_false_of_isAddOf (k : TEK) (e : Event)
    (h : isAddOf k e = true) : isRemovalOf k e = false := by
  rcases e with ⟨key, d, c⟩ | ⟨key, d, a⟩ | ⟨key, d, a⟩ <;>
    simp [isAddOf, isRemovalOf, Event.isAdd, Event.isRemoval] at h ⊢

theorem openAdds_append (es : List Event) (e : Event) (k : TEK) :
    openAdds (es ++ [e]) k =
      if isRemovalOf k e then 0
      else if isAddOf k e then openAdds es k + 1
      else openAdds es k := by
  unfold openAdds
  rw [List.reverse_append]
  rfl

theorem openAddsRev_zero_mem (res : List Event) (k : TEK)
    (h : openAddsRev res k = 0) :
    ∀ p e s, res = p ++ e :: s → isAddOf k e = true →
      ∃ r ∈ p, isRemovalOf k r = true := by
  induction res with
  | nil =>
    intro p e s heq
    exact absurd heq (by simp)
  | cons q rest ih =>
    intro p e s heq hadd
    cases p with
    | nil =>
      simp only [List.nil_append] at heq
      injection heq with hq hrest
      exfalso
      rw [← hq] at hadd
      have hnr := isRemovalOf_eq_false_of_isAddOf k q hadd
      unfold openAddsRev at h
      simp [hnr, hadd] at h
    | cons q' p' =>
      simp only [List.cons_append] at heq
      injection heq with hq hrest
      subst hq
      by_cases hr : isRemovalOf k q = true
      · exact ⟨q, List.mem_cons_self _ _, hr⟩
      · have h0 : openAddsRev rest k = 0 := by
          unfold openAddsRev at h
          rw [Bool.not_eq_true] at hr
          simp only [hr, Bool.false_eq_true, if_false] at h
          by_cases ha : isAddOf k q = true
          · rw [if_pos ha] at h; omega
          · rwa [if_neg ha] at h
        obtain ⟨r, hm, hrr⟩ := ih h0 p' e s hrest hadd
        exact ⟨r, List.mem_cons_of_mem _ hm, hrr⟩

theorem openAdds_zero_mem (es : List Event) (k : TEK)
    (h : openAdds es k = 0) :
    ∀ p e s, es = p ++ e :: s → isAddOf k e = true →
      ∃ r ∈ s, isRemovalOf k r = true := by
  intro p e s heq hadd
  have hrev : es.reverse = s.reverse ++ e :: p.reverse := by
    rw [heq]; simp
  obtain ⟨r, hrmem, hrr⟩ :=
    openAddsRev_zero_mem es.reverse k h s.reverse e p.reverse hrev hadd
  exact ⟨r, List.mem_reverse.mp hrmem, hrr⟩

theorem goodTrace_append (es : List Event) (e : Event) (h : GoodTrace es)
    (h2 : ∀ k, isAddOf k e = true → openAdds es k = 0) :
    GoodTrace (es ++ [e]) := by
  intro k p mid s e1 e2 heq ha1 ha2
  rcases s.eq_nil_or_concat with rfl | ⟨s', b, rfl⟩
  · have heq' : es ++ [e] = (p ++ e1 :: mid) ++ [e2] := by
      rw [heq]; simp
    obtain ⟨hes, he⟩ := List.append_inj' heq' rfl
    injection he with he1 _
    rw [he1] at h2
    exact openAdds_zero_mem es k (h2 k ha2) p e1 mid hes ha1
  · have heq' : es ++ [e] = (p ++ e1 :: (mid ++ e2 :: s')) ++ [b] := by
      rw [heq]; simp
    obtain ⟨hes, _⟩ := List.append_inj' heq' rfl
    exact h k p mid s' e1 e2 hes ha1 ha2

theorem isAddOf_AddedEvent (k key : TEK) (d : Int) (c : Bool) :
    isAddOf k (.AddedEvent key d c) = decide (key = k) := by
  simp [isAddOf, Event.isAdd, Event.key]

theorem isAddOf_RevokedEvent (k key : TEK) (d a : Int) :
    isAddOf k (.RevokedEvent key d a) = false := by
  simp [isAddOf, Event.isAdd]

theorem isAddOf_AutoRemovedEvent (k key : TEK) (d a : Int) :
    isAddOf k (.AutoRemovedEvent key d a) = false := by
  simp [isAddOf, Event.isAdd]

theorem isRemovalOf_AddedEvent (k key : TEK) (d : Int) (c : Bool) :
    isRemovalOf k (.AddedEvent key d c) = false := by
  simp [isRemovalOf, Event.isRemoval]

theorem isRemovalOf_RevokedEvent (k key : TEK) (d a : Int) :
    isRemovalOf k (.RevokedEvent key d a) = decide (key = k) := by
  simp [isRemovalOf, Event.isRemoval, Event.key]

theorem isRemovalOf_AutoRemovedEvent (k key : TEK) (d a : Int) :
    isRemovalOf k (.AutoRemovedEvent key d a) = decide (key = k) := by
  simp [isRemovalOf, Event.isRemoval, Event.key]

theorem lookupWhen_cons_isSome (m : List (TEK × Int)) (k0 k : TEK) (v : Int)
    (h : (lookupWhen m k).isSome = true) :
    (lookupWhen ((k0, v) :: m) k).isSome = true := by
  unfold lookupWhen
  split <;> simp [h]

theorem lookupWhen_cons_self (m : List (TEK × Int)) (k : TEK) (v : Int) :
    lookupWhen ((k, v) :: m) k = some v := by
  unfold lookupWhen
  simp

/-! ### Lemmas about the ADD loop -/

theorem processAdd_of_mem (st : ExtState) (p : Int) (key : TEK)
    (h : key ∈ st.all_keys) : processAdd st p key = st := by
  unfold processAdd
  rw [if_pos h]

theorem processAdd_of_not_mem (st : ExtState) (p : Int) (key : TEK)
    (h : key ∉ st.all_keys) :
    processAdd st p key =
      { st with
        added_when := (key, p) :: st.added_when,
        events := st.events ++
          [.AddedEvent key p (st.all_keys.any (fun o => decide (key.data = o.data)))],
        all_keys := st.all_keys ++ [key] } := by
  unfold processAdd
  rw [if_neg h]

theorem processAdd_prev (st : ExtState) (p : Int) (key : TEK) :
    (processAdd st p key).prev = st.prev := by
  unfold processAdd; split <;> rfl

theorem processAdd_dts (st : ExtState) (p : Int) (key : TEK) :
    (processAdd st p key).dts = st.dts := by
  unfold processAdd; split <;> rfl

theorem processAdd_revoked (st : ExtState) (p : Int) (key : TEK) :
    (processAdd st p key).revoked_keys = st.revoked_keys := by
  unfold processAdd; split <;> rfl

theorem processAdd_events_ext (st : ExtState) (p : Int) (key : TEK) :
    ∃ tail, (processAdd st p key).events = st.events ++ tail ∧
      ∀ e ∈ tail, e.isAdd = true ∧ e.key = key ∧ e.dt = p := by
  unfold processAdd
  split
  · exact ⟨[], by simp⟩
  · refine ⟨_, rfl, ?_⟩
    intro e he
    rw [List.mem_singleton] at he
    subst he
    exact ⟨rfl, rfl, rfl⟩

theorem processAdd_lookup_mono (st : ExtState) (p : Int) (key k : TEK)
    (h : (lookupWhen st.added_when k).isSome = true) :
    (lookupWhen (processAdd st p key).added_when k).isSome = true := by
  unfold processAdd
  split
  · exact h
  · exact lookupWhen_cons_isSome _ _ _ _ h

theorem processAdd_all_keys_mono (st : ExtState) (p : Int) (key k : TEK)
    (h : k ∈ st.all_keys) : k ∈ (processAdd st p key).all_keys := by
  unfold processAdd
  split
  · exact h
  · exact List.mem_append_left _ h

theorem processAdd_inv (st : ExtState) (p : Int) (key : TEK)
    (h : WalkInv st) : WalkInv (processAdd st p key) := by
  obtain ⟨hnd, hcov, hlink, hgood⟩ := h
  by_cases hk : key ∈ st.all_keys
  · rw [processAdd_of_mem st p key hk]
    exact ⟨hnd, hcov, hlink, hgood⟩
  · rw [processAdd_of_not_mem st p key hk]
    refine ⟨?_, ?_, ?_, ?_⟩
    · simp only [List.nodup_append, List.nodup_singleton, true_and]
      exact ⟨hnd, by simpa using hk⟩
    · intro k hkmem
      rcases List.mem_append.mp hkmem with hmem | hmem
      · exact lookupWhen_cons_isSome _ _ _ _ (hcov k hmem)
      · rw [List.mem_singleton] at hmem
        subst hmem
        rw [lookupWhen_cons_self]
        rfl
    · intro k
      rw [openAdds_append, isRemovalOf_AddedEvent, isAddOf_AddedEvent]
      simp only [Bool.false_eq_true, if_false]
      by_cases hkey : key = k
      · subst hkey
        rw [if_pos (by simp), hlink key, if_neg hk, if_pos (by simp)]
      · rw [if_neg (by simp [hkey]), hlink k]
        have hiff : k ∈ st.all_keys ++ [key] ↔ k ∈ st.all_keys := by
          simp only [List.mem_append, List.mem_singleton]
          constructor
          · rintro (h | rfl)
            · exact h
            · exact absurd rfl hkey
          · exact Or.inl
        rw [if_congr hiff rfl rfl]
    · apply goodTrace_append _ _ hgood
      intro k hadd
      rw [isAddOf_AddedEvent] at hadd
      obtain rfl : key = k := of_decide_eq_true hadd
      rw [hlink key, if_neg hk]

theorem addLoop_inv (p : Int) (ks : List TEK) :
    ∀ st : ExtState, WalkInv st → WalkInv (addLoop ks p st) := by
  induction ks with
  | nil => intro st h; exact h
  | cons k ks ih =>
    intro st h
    exact ih (processAdd st p k) (processAdd_inv st p k h)

theorem addLoop_spec (p : Int) (ks : List TEK) :
    ∀ st : ExtState,
      (addLoop ks p st).prev = st.prev ∧
      (addLoop ks p st).dts = st.dts ∧
      (addLoop ks p st).revoked_keys = st.revoked_keys ∧
      (∃ tail, (addLoop ks p st).events = st.events ++ tail ∧
        ∀ e ∈ tail, e.isAdd = true ∧ e.key ∈ ks ∧ e.dt = p) ∧
      (∀ k, (lookupWhen st.added_when k).isSome = true →
        (lookupWhen (addLoop ks p st).added_when k).isSome = true) ∧
      (∀ k ∈ st.all_keys, k ∈ (addLoop ks p st).all_keys) := by
  induction ks with
  | nil =>
    intro st
    exact ⟨rfl, rfl, rfl, ⟨[], by simp [addLoop], fun e he => absurd he (List.not_mem_nil e)⟩,
      fun k h => h, fun k h => h⟩
  | cons k ks ih =>
    intro st
    obtain ⟨hprev, hdts, hrev, ⟨tail, hev, htail⟩, hlk, hmono⟩ := ih (processAdd st p k)
    obtain ⟨tl0, hev0, htl0⟩ := processAdd_events_ext st p k
    refine ⟨?_, ?_, ?_, ?_, ?_, ?_⟩
    · rw [show addLoop (k :: ks) p st = addLoop ks p (processAdd st p k) from rfl,
        hprev, processAdd_prev]
    · rw [show addLoop (k :: ks) p st = addLoop ks p (processAdd st p k) from rfl,
        hdts, processAdd_dts]
    · rw [show addLoop (k :: ks) p st = addLoop ks p (processAdd st p k) from rfl,
        hrev, processAdd_revoked]
    · refine ⟨tl0 ++ tail, ?_, ?_⟩
      · rw [show addLoop (k :: ks) p st = addLoop ks p (processAdd st p k) from rfl,
          hev, hev0, List.append_assoc]
      · intro e he
        rcases List.mem_append.mp he with he | he
        · obtain ⟨ha, hkey, hdt⟩ := htl0 e he
          exact ⟨ha, hkey ▸ List.mem_cons_self _ _, hdt⟩
        · obtain ⟨ha, hkey, hdt⟩ := htail e he
          exact ⟨ha, List.mem_cons_of_mem _ hkey, hdt⟩
    · intro k' h
      exact hlk k' (processAdd_lookup_mono st p k k' h)
    · intro k' h
      exact hmono k' (processAdd_all_keys_mono st p k k' h)

/-! ### Lemmas about the departure loop -/

theorem processDeparture_of_mem (inter : List TEK) (dt : Int) (st : ExtState)
    (key : TEK) (h : key ∈ inter) : processDeparture inter dt st key = some st := by
  unfold processDeparture
  rw [if_pos h]

theorem processDeparture_revoked_branch (inter : List TEK) (dt : Int)
    (st : ExtState) (key : TEK) (a : Int)
    (h1 : key ∉ inter) (h2 : lookupWhen st.added_when key = some a)
    (h3 : dt - key.dtSec ≤ graceWindow) :
    processDeparture inter dt st key =
      some { st with
        events := st.events ++ [.RevokedEvent key dt a],
        revoked_keys := setAdd st.revoked_keys key,
        all_keys := st.all_keys.erase key } := by
  unfold processDeparture
  rw [if_neg h1, h2]
  dsimp only
  rw [if_pos h3]

theorem processDeparture_auto_branch (inter : List TEK) (dt : Int)
    (st : ExtState) (key : TEK) (a : Int)
    (h1 : key ∉ inter) (h2 : lookupWhen st.added_when key = some a)
    (h3 : graceWindow < dt - key.dtSec) :
    processDeparture inter dt st key =
      some { st with
        events := st.events ++ [.AutoRemovedEvent key dt a],
        all_keys := st.all_keys.erase key } := by
  unfold processDeparture
  rw [if_neg h1, h2]
  dsimp only
  rw [if_neg (not_le.mpr h3)]

theorem processDeparture_ext (inter : List TEK) (dt : Int) (st : ExtState)
    (key : TEK) (st' : ExtState)
    (h : processDeparture inter dt st key = some st') :
    st'.added_when = st.added_when ∧ st'.prev = st.prev ∧ st'.dts = st.dts ∧
      (∀ k ∈ st'.all_keys, k ∈ st.all_keys) ∧
      ∃ tail, st'.events = st.events ++ tail ∧
        ∀ e ∈ tail, e.isRemoval = true ∧ e.key ∉ inter := by
  unfold processDeparture at h
  by_cases hm : key ∈ inter
  · rw [if_pos hm] at h
    injection h with h
    subst h
    exact ⟨rfl, rfl, rfl, fun k hk => hk, ⟨[], by simp, fun e he => absurd he (List.not_mem_nil e)⟩⟩
  · rw [if_neg hm] at h
    cases hlk : lookupWhen st.added_when key with
    | none => rw [hlk] at h; exact absurd h (by simp)
    | some a =>
      rw [hlk] at h
      dsimp only at h
      by_cases hage : dt - key.dtSec ≤ graceWindow
      · rw [if_pos hage] at h
        injection h with h
        subst h
        refine ⟨rfl, rfl, rfl, fun k hk => List.mem_of_mem_erase hk, ?_⟩
        refine ⟨[.RevokedEvent key dt a], rfl, ?_⟩
        intro e he
        rw [List.mem_singleton] at he
        subst he
        exact ⟨rfl, hm⟩
      · rw [if_neg hage] at h
        injection h with h
        subst h
        refine ⟨rfl, rfl, rfl, fun k hk => List.mem_of_mem_erase hk, ?_⟩
        refine ⟨[.AutoRemovedEvent key dt a], rfl, ?_⟩
        intro e he
        rw [List.mem_singleton] at he
        subst he
        exact ⟨rfl, hm⟩

theorem erase_link_update (st : ExtState) (key : TEK)
    (hnd : st.all_keys.Nodup)
    (hlink : ∀ k, openAdds st.events k = if k ∈ st.all_keys then 1 else 0)
    (ev : Event) (hrm : ∀ k, isRemovalOf k ev = decide (key = k))
    (had : ∀ k, isAddOf k ev = false) :
    ∀ k, openAdds (st.events ++ [ev]) k =
      if k ∈ st.all_keys.erase key then 1 else 0 := by
  intro k
  rw [openAdds_append, hrm k, had k]
  by_cases hkey : key = k
  · subst hkey
    rw [if_pos (by simp)]
    rw [if_neg (by simp [List.Nodup.mem_erase_iff hnd])]
  · rw [if_neg (by simp [hkey]), if_neg (by simp), hlink k]
    have hiff : k ∈ st.all_keys.erase key ↔ k ∈ st.all_keys := by
      rw [List.Nodup.mem_erase_iff hnd]
      constructor
      · exact fun h => h.2
      · exact fun h => ⟨fun hkk => hkey hkk.symm, h⟩
    rw [if_congr hiff rfl rfl]

theorem processDeparture_inv (inter : List TEK) (dt : Int) (st : ExtState)
    (key : TEK) (st' : ExtState)
    (h : WalkInv st) (hsome : processDeparture inter dt st key = some st') :
    WalkInv st' := by
  obtain ⟨hnd, hcov, hlink, hgood⟩ := h
  unfold processDeparture at hsome
  by_cases hm : key ∈ inter
  · rw [if_pos hm] at hsome
    injection hsome with hsome
    subst hsome
    exact ⟨hnd, hcov, hlink, hgood⟩
  · rw [if_neg hm] at hsome
    cases hlk : lookupWhen st.added_when key with
    | none => rw [hlk] at hsome; exact absurd hsome (by simp)
    | some a =>
      rw [hlk] at hsome
      dsimp only at hsome
      by_cases hage : dt - key.dtSec ≤ graceWindow
      · rw [if_pos hage] at hsome
        injection hsome with hsome
        subst hsome
        refine ⟨hnd.erase key, ?_, ?_, ?_⟩
        · intro k hk
          exact hcov k (List.mem_of_mem_erase hk)
        · exact erase_link_update st key hnd hlink _
            (fun k => isRemovalOf_RevokedEvent k key dt a)
            (fun k => isAddOf_RevokedEvent k key dt a)
        · apply goodTrace_append _ _ hgood
          intro k hadd
          rw [isAddOf_RevokedEvent] at hadd
          exact absurd hadd (by simp)
      · rw [if_neg hage] at hsome
        injection hsome with hsome
        subst hsome
        refine ⟨hnd.erase key, ?_, ?_, ?_⟩
        · intro k hk
          exact hcov k (List.mem_of_mem_erase hk)
        · exact erase_link_update st key hnd hlink _
            (fun k => isRemovalOf_AutoRemovedEvent k key dt a)
            (fun k => isAddOf_AutoRemovedEvent k key dt a)
        · apply goodTrace_append _ _ hgood
          intro k hadd
          rw [isAddOf_AutoRemovedEvent] at hadd
          exact absurd hadd (by simp)

theorem departureFold_ext (inter : List TEK) (dt : Int) (ks : List TEK) :
    ∀ st st' : ExtState,
      List.foldlM (processDeparture inter dt) st ks = some st' →
      st'.added_when = st.added_when ∧ st'.prev = st.prev ∧ st'.dts = st.dts ∧
        ∃ tail, st'.events = st.events ++ tail ∧
          ∀ e ∈ tail, e.isRemoval = true ∧ e.key ∉ inter := by
  induction ks with
  | nil =>
    intro st st' h
    simp only [List.foldlM_nil] at h
    injection h with h
    subst h
    exact ⟨rfl, rfl, rfl, ⟨[], by simp, fun e he => absurd he (List.not_mem_nil e)⟩⟩
  | cons k ks ih =>
    intro st st' h
    simp only [List.foldlM_cons] at h
    cases h1 : processDeparture inter dt st k with
    | none => rw [h1] at h; exact absurd h (by simp)
    | some st1 =>
      rw [h1] at h
      simp only [Option.bind_eq_bind, Option.some_bind] at h
      obtain ⟨haw, hp, hd, tail, hev, htail⟩ := ih st1 st' h
      obtain ⟨haw0, hp0, hd0, _, tail0, hev0, htail0⟩ :=
        processDeparture_ext inter dt st k st1 h1
      refine ⟨haw.trans haw0, hp.trans hp0, hd.trans hd0,
        tail0 ++ tail, ?_, ?_⟩
      · rw [hev, hev0, List.append_assoc]
      · intro e he
        rcases List.mem_append.mp he with he | he
        · exact htail0 e he
        · exact htail e he

theorem departureFold_some (inter : List TEK) (dt : Int) (ks : List TEK) :
    ∀ st : ExtState, WalkInv st →
      (∀ k ∈ ks, (lookupWhen st.added_when k).isSome = true) →
      ∃ st', List.foldlM (processDeparture inter dt) st ks = some st' ∧ WalkInv st' := by
  induction ks with
  | nil =>
    intro st h _
    exact ⟨st, by simp, h⟩
  | cons k ks ih =>
    intro st h hcov
    have hk : (lookupWhen st.added_when k).isSome = true :=
      hcov k (List.mem_cons_self _ _)
    have hstep : ∃ st1, processDeparture inter dt st k = some st1 := by
      by_cases hm : k ∈ inter
      · exact ⟨st, processDeparture_of_mem inter dt st k hm⟩
      · obtain ⟨a, ha⟩ := Option.isSome_iff_exists.mp hk
        by_cases hage : dt - k.dtSec ≤ graceWindow
        · exact ⟨_, processDeparture_revoked_branch inter dt st k a hm ha hage⟩
        · exact ⟨_, processDeparture_auto_branch inter dt st k a hm ha (not_le.mp hage)⟩
    obtain ⟨st1, hst1⟩ := hstep
    have hinv1 : WalkInv st1 := processDeparture_inv inter dt st k st1 h hst1
    have haw : st1.added_when = st.added_when :=
      (processDeparture_ext inter dt st k st1 hst1).1
    obtain ⟨st', hfold, hinv'⟩ := ih st1 hinv1 (by
      intro k' hk'
      rw [haw]
      exact hcov k' (List.mem_cons_of_mem _ hk'))
    refine ⟨st', ?_, hinv'⟩
    simp only [List.foldlM_cons, hst1, Option.bind_eq_bind, Option.some_bind]
    exact hfold

/-! ### Lemmas about the archive walk -/

theorem initState_inv : WalkInv initState := by
  refine ⟨List.nodup_nil, ?_, ?_, ?_⟩
  · intro k hk
    exact absurd hk (List.not_mem_nil k)
  · intro k
    simp [initState, openAdds, openAddsRev]
  · intro k p mid s e1 e2 heq
    exact absurd heq (by simp [initState])

theorem processArchive_eq_none_prev (st : ExtState) (snap : Int × List TEK)
    (hp : st.prev = none) :
    processArchive st snap =
      some { st with dts := st.dts ++ [snap.1], prev := some (snap.2, snap.1) } := by
  unfold processArchive
  dsimp only
  rw [hp]

theorem processArchive_eq_some_prev (st : ExtState) (snap : Int × List TEK)
    (pk : List TEK) (pdt : Int) (hp : st.prev = some (pk, pdt)) :
    processArchive st snap =
      (match departureLoop (computeInter snap.2 pk) snap.1
          (addLoop (computeInter snap.2 pk) pdt { st with dts := st.dts ++ [snap.1] }) with
       | none => none
       | some st3 => some { st3 with prev := some (snap.2, snap.1) }) := by
  unfold processArchive
  dsimp only
  rw [hp]

theorem processArchive_some_inv (st : ExtState) (snap : Int × List TEK)
    (h : WalkInv st) :
    ∃ st', processArchive st snap = some st' ∧ WalkInv st' := by
  cases hp : st.prev with
  | none =>
    refine ⟨_, processArchive_eq_none_prev st snap hp, ?_⟩
    exact h
  | some pkpdt =>
    obtain ⟨pk, pdt⟩ := pkpdt
    have h1 : WalkInv ({ st with dts := st.dts ++ [snap.1] } : ExtState) := h
    have h2 : WalkInv (addLoop (computeInter snap.2 pk) pdt
        { st with dts := st.dts ++ [snap.1] }) :=
      addLoop_inv pdt (computeInter snap.2 pk) _ h1
    obtain ⟨st3, hfold, hinv3⟩ :=
      departureFold_some (computeInter snap.2 pk) snap.1
        (addLoop (computeInter snap.2 pk) pdt { st with dts := st.dts ++ [snap.1] }).all_keys
        _ h2 h2.2.1
    refine ⟨{ st3 with prev := some (snap.2, snap.1) }, ?_, ?_⟩
    · rw [processArchive_eq_some_prev st snap pk pdt hp]
      have : departureLoop (computeInter snap.2 pk) snap.1
          (addLoop (computeInter snap.2 pk) pdt { st with dts := st.dts ++ [snap.1] }) =
          some st3 := hfold
      rw [this]
    · exact hinv3

theorem processArchive_prev (st : ExtState) (snap : Int × List TEK)
    (st' : ExtState) (h : processArchive st snap = some st') :
    st'.prev = some (snap.2, snap.1) := by
  cases hp : st.prev with
  | none =>
    rw [processArchive_eq_none_prev st snap hp] at h
    injection h with h
    subst h
    rfl
  | some pkpdt =>
    obtain ⟨pk, pdt⟩ := pkpdt
    rw [processArchive_eq_some_prev st snap pk pdt hp] at h
    cases hd : departureLoop (computeInter snap.2 pk) snap.1
        (addLoop (computeInter snap.2 pk) pdt { st with dts := st.dts ++ [snap.1] }) with
    | none => rw [hd] at h; exact absurd h (by simp)
    | some st3 =>
      rw [hd] at h
      injection h with h
      subst h
      rfl

theorem walk_inv (snaps : List (Int × List TEK)) :
    ∀ st, WalkInv st →
      ∃ st', List.foldlM processArchive st snaps = some st' ∧ WalkInv st' := by
  induction snaps with
  | nil =>
    intro st h
    exact ⟨st, by simp, h⟩
  | cons snap rest ih =>
    intro st h
    obtain ⟨st1, hstep, hinv1⟩ := processArchive_some_inv st snap h
    obtain ⟨st', hfold, hinv'⟩ := ih st1 hinv1
    refine ⟨st', ?_, hinv'⟩
    simp only [List.foldlM_cons, hstep, Option.bind_eq_bind, Option.some_bind]
    exact hfold

theorem walk_prev (snaps : List (Int × List TEK)) (hne : snaps ≠ []) :
    ∀ st st', List.foldlM processArchive st snaps = some st' →
      st'.prev.isSome = true := by
  induction snaps with
  | nil => exact absurd rfl hne
  | cons snap rest ih =>
    intro st st' h
    simp only [List.foldlM_cons] at h
    cases h1 : processArchive st snap with
    | none => rw [h1] at h; exact absurd h (by simp)
    | some st1 =>
      rw [h1] at h
      simp only [Option.bind_eq_bind, Option.some_bind] at h
      cases hrest : rest with
      | nil =>
        subst hrest
        simp only [List.foldlM_nil] at h
        injection h with h
        subst h
        rw [processArchive_prev st snap st1 h1]
        rfl
      | cons r rs =>
        exact ih (by simp [hrest]) st1 st' (hrest ▸ h)

theorem terminalPass_some_inv (st : ExtState) (supp : List TEK)
    (h : WalkInv st) (hp : st.prev.isSome = true) :
    ∃ st', terminalPass st supp = some st' ∧ WalkInv st' := by
  obtain ⟨⟨pk, pdt⟩, hps⟩ := Option.isSome_iff_exists.mp hp
  unfold terminalPass
  rw [hps]
  exact ⟨_, rfl, addLoop_inv pdt (computeInter supp pk) st h⟩

theorem runExtractor_inv (snaps : List (Int × List TEK)) (supp : List TEK)
    (st : ExtState) (h : runExtractor snaps supp = some st) : WalkInv st := by
  obtain ⟨st0, hw, hinv0⟩ := walk_inv snaps initState initState_inv
  unfold runExtractor terminalPass at h
  rw [show walkArchives snaps = List.foldlM processArchive initState snaps from rfl,
    hw] at h
  dsimp only at h
  cases hp : st0.prev with
  | none => rw [hp] at h; exact absurd h (by simp)
  | some pkpdt =>
    obtain ⟨pk, pdt⟩ := pkpdt
    rw [hp] at h
    dsimp only at h
    injection h with h
    subst h
    exact addLoop_inv pdt (computeInter supp pk) st0 hinv0

theorem runExtractor_isSome (snaps : List (Int × List TEK)) (supp : List TEK)
    (hne : snaps ≠ []) : (runExtractor snaps supp).isSome = true := by
  obtain ⟨st0, hw, hinv0⟩ := walk_inv snaps initState initState_inv
  have hp : st0.prev.isSome = true := walk_prev snaps hne initState st0 hw
  obtain ⟨st', ht, _⟩ := terminalPass_some_inv st0 supp hinv0 hp
  unfold runExtractor
  rw [show walkArchives snaps = List.foldlM processArchive initState snaps from rfl, hw]
  dsimp only
  rw [ht]
  rfl

/-! ### Lemmas about the intersection -/

theorem mem_sortInter (l : List TEK) (k : TEK) : k ∈ sortInter l ↔ k ∈ l :=
  (List.perm_insertionSort interKeyLe l).mem_iff

theorem mem_computeInter (now_keys prev_keys : List TEK) (k : TEK) :
    k ∈ computeInter now_keys prev_keys ↔ k ∈ now_keys ∧ k ∈ prev_keys := by
  unfold computeInter
  rw [mem_sortInter, List.mem_dedup, List.mem_filter]
  simp

theorem addLoop_events_ext (p : Int) (ks : List TEK) (st : ExtState) :
    ∃ tail, (addLoop ks p st).events = st.events ++ tail :=
  ⟨(addLoop_spec p ks st).2.2.2.1.choose,
    (addLoop_spec p ks st).2.2.2.1.choose_spec.1⟩

theorem addLoop_events_ne_nil (p : Int) (ks : List TEK) (st : ExtState)
    (hne : ks ≠ []) (hempty : st.all_keys = []) :
    (addLoop ks p st).events ≠ [] := by
  obtain ⟨k, rest, rfl⟩ := List.exists_cons_of_ne_nil hne
  have hmem : k ∉ st.all_keys := by
    rw [hempty]; exact List.not_mem_nil k
  rw [show addLoop (k :: rest) p st = addLoop rest p (processAdd st p k) from rfl]
  obtain ⟨tail, hev⟩ := addLoop_events_ext p rest (processAdd st p k)
  rw [hev, processAdd_of_not_mem st p k hmem]
  simp

/-! ### Claim theorems -/

/-- C1: a live key absent from the current intersection is classified by its
age `dt - key.dt`: within the 8-day grace window the loop emits
`RevokedEvent` (carrying the recorded `added_when` timestamp) and inserts the
key into `revoked_keys`; past the window it emits `AutoRemovedEvent` and
leaves `revoked_keys` unchanged; in both cases the key is erased from the live
set. The two branches split exactly at age `8 * 86400` seconds, so age
exactly 8 days is revoked and 8 days plus one second is auto-removed. -/
theorem c1_departure_classification (inter : List TEK) (dt : Int) (st : ExtState)
    (key : TEK) (a : Int)
    (_hlive : key ∈ st.all_keys) (hnd : st.all_keys.Nodup)
    (hni : key ∉ inter) (ha : lookupWhen st.added_when key = some a) :
    key ∉ st.all_keys.erase key ∧
    (dt - key.dtSec ≤ graceWindow →
      processDeparture inter dt st key =
        some { st with
          events := st.events ++ [.RevokedEvent key dt a],
          revoked_keys := setAdd st.revoked_keys key,
          all_keys := st.all_keys.erase key } ∧
      key ∈ setAdd st.revoked_keys key) ∧
    (graceWindow < dt - key.dtSec →
      processDeparture inter dt st key =
        some { st with
          events := st.events ++ [.AutoRemovedEvent key dt a],
          all_keys := st.all_keys.erase key }) := by
  refine ⟨?_, ?_, ?_⟩
  · rw [List.Nodup.mem_erase_iff hnd]
    exact fun hc => hc.1 rfl
  · intro hage
    refine ⟨processDeparture_revoked_branch inter dt st key a hni ha hage, ?_⟩
    unfold setAdd
    split
    · assumption
    · exact List.mem_append_right _ (List.mem_singleton_self key)
  · intro hage
    exact processDeparture_auto_branch inter dt st key a hni ha hage

/-- Witness for C1 at the grace-window boundary: with the key starting at
time 0, a departure at `dt = 691200` (exactly 8 days) is revoked and a
departure at `dt = 691201` (8 days plus one second) is auto-removed. -/
theorem c1_departure_classification_witness :
    processDeparture [] 691200
        ⟨[tekA], [], [(tekA, 0)], [], none, []⟩ tekA =
      some ⟨List.erase [tekA] tekA, setAdd [] tekA, [(tekA, 0)],
        [] ++ [.RevokedEvent tekA 691200 0], none, []⟩ ∧
    processDeparture [] 691201
        ⟨[tekA], [], [(tekA, 0)], [], none, []⟩ tekA =
      some ⟨List.erase [tekA] tekA, [], [(tekA, 0)],
        [] ++ [.AutoRemovedEvent tekA 691201 0], none, []⟩ :=
  ⟨((c1_departure_classification [] 691200 ⟨[tekA], [], [(tekA, 0)], [], none, []⟩
      tekA 0 (by decide) (by decide) (by decide) (by decide)).2.1 (by decide)).1,
    (c1_departure_classification [] 691201 ⟨[tekA], [], [(tekA, 0)], [], none, []⟩
      tekA 0 (by decide) (by decide) (by decide) (by decide)).2.2 (by decide)⟩

/-- C7: the computed transition key set is the set intersection of the two
snapshots: when each padding list is disjoint from the other snapshot, the
intersection recovers exactly the shared real keys, and an empty adjacent
snapshot yields an empty intersection rather than an error. -/
theorem c7_intersection_noise_rejection (r1 r2 p1 p2 : List TEK)
    (h1 : ∀ k ∈ p1, k ∉ r2 ++ p2) (h2 : ∀ k ∈ p2, k ∉ r1 ++ p1) :
    (∀ k, k ∈ computeInter (r2 ++ p2) (r1 ++ p1) ↔ k ∈ r1 ∧ k ∈ r2) ∧
    (∀ s : List TEK, computeInter [] s = [] ∧ computeInter s [] = []) := by
  constructor
  · intro k
    rw [mem_computeInter]
    constructor
    · rintro ⟨hnow, hprev⟩
      rcases List.mem_append.mp hnow with hr2 | hp2
      · rcases List.mem_append.mp hprev with hr1 | hp1
        · exact ⟨hr1, hr2⟩
        · exact absurd (List.mem_append.mpr (Or.inl hr2)) (h1 k hp1)
      · exact absurd hprev (h2 k hp2)
    · rintro ⟨hr1, hr2⟩
      exact ⟨List.mem_append.mpr (Or.inl hr2), List.mem_append.mpr (Or.inl hr1)⟩
  · intro s
    constructor
    · rfl
    · unfold computeInter
      have : s.filter (fun k => decide (k ∈ ([] : List TEK))) = [] := by
        simp
      rw [this]
      rfl

/-- Witness for C7: with real keys `[tekA, tekB]` and `[tekA, tekC]` and
disjoint padding, the shared real key `tekA` survives the intersection. -/
theorem c7_intersection_noise_rejection_witness :
    tekA ∈ computeInter ([tekA, tekC] ++ [⟨[8], 8, 1, 144⟩])
      ([tekA, tekB] ++ [⟨[9], 9, 1, 144⟩]) :=
  ((c7_intersection_noise_rejection [tekA, tekB] [tekA, tekC]
      [⟨[9], 9, 1, 144⟩] [⟨[8], 8, 1, 144⟩]
      (by decide) (by decide)).1 tekA).mpr ⟨by decide, by decide⟩

/-- C2 is false as stated: in this four-snapshot run the key `tekA` is added,
then revoked, and later the key `tekB` — identical data, different start
interval — is added with `changed = false`, although a key with identical
data and different metadata had been added earlier in the same run. The scan
on line 141 consults only the current live set `all_keys`, from which `tekA`
was removed when it departed. -/
theorem c2_changed_flag_counterexample :
    (runExtractor [(0, [tekA]), (600, [tekA]), (1200, [tekB]), (1800, [tekB])]
        [tekB]).map ExtState.events =
      some [.AddedEvent tekA 0 false,
            .RevokedEvent tekA 1200 0,
            .AddedEvent tekB 1200 false] ∧
    tekA.data = tekB.data ∧ tekA.interval ≠ tekB.interval := by
  decide

/-- C2 (amended): the `changed` flag of an emitted `AddedEvent` is true iff
some key currently in the live set `all_keys` — not any previously added key —
has identical data; such a key necessarily differs from the added key in
interval, level or period, because the added key is not in the live set. -/
theorem c2_changed_flag_amended (st : ExtState) (p : Int) (key : TEK)
    (h : key ∉ st.all_keys) :
    ∃ c, (processAdd st p key).events = st.events ++ [.AddedEvent key p c] ∧
      (c = true ↔ ∃ o ∈ st.all_keys, o.data = key.data ∧
        (o.interval ≠ key.interval ∨ o.level ≠ key.level ∨ o.period ≠ key.period)) := by
  rw [processAdd_of_not_mem st p key h]
  refine ⟨_, rfl, ?_⟩
  rw [List.any_eq_true]
  constructor
  · rintro ⟨o, hmem, hdata⟩
    have hdata' : o.data = key.data := (of_decide_eq_true hdata).symm
    refine ⟨o, hmem, hdata', ?_⟩
    by_contra hc
    push_neg at hc
    obtain ⟨hi, hl, hp⟩ := hc
    have : o = key := by
      cases o; cases key
      simp_all
    exact h (this ▸ hmem)
  · rintro ⟨o, hmem, hdata, _⟩
    exact ⟨o, hmem, decide_eq_true hdata.symm⟩

/-- Witness for the amended C2: adding a key whose data equals that of the one
live key (which has a different interval) yields `changed = true`. -/
theorem c2_changed_flag_amended_witness :
    ∃ c, (processAdd ⟨[tekA], [], [(tekA, 0)], [], none, []⟩ 600 tekB).events =
        [] ++ [.AddedEvent tekB 600 c] ∧
      (c = true ↔ ∃ o ∈ [tekA], o.data = tekB.data ∧
        (o.interval ≠ tekB.interval ∨ o.level ≠ tekB.level ∨ o.period ≠ tekB.period)) :=
  c2_changed_flag_amended ⟨[tekA], [], [(tekA, 0)], [], none, []⟩ 600 tekB (by decide)

/-- C4 is false as stated: with zero snapshots the terminal pass fails
(`set(prev_keys)` with `prev_keys is None`), and with a single snapshot the
terminal add-only pass against the supplementary snapshot emits an
`AddedEvent`, not zero events. -/
theorem c4_empty_input_counterexample :
    runExtractor [] [tekA] = none ∧
    (runExtractor [(0, [tekA])] [tekA]).map ExtState.events =
      some [.AddedEvent tekA 0 false] := by
  decide

/-- C4 (amended): with zero snapshots the extractor fails rather than
returning zero events; with a single snapshot the regular walk emits nothing,
and the terminal add-only pass emits only `AddedEvent`s — zero events exactly
when the single snapshot and the supplementary snapshot share no key. -/
theorem c4_empty_input_amended (supp : List TEK) :
    runExtractor [] supp = none ∧
    ∀ (t : Int) (ks : List TEK), ∃ st, runExtractor [(t, ks)] supp = some st ∧
      (∀ e ∈ st.events, e.isAdd = true) ∧
      (st.events = [] ↔ computeInter supp ks = []) := by
  constructor
  · rfl
  · intro t ks
    have hstep : processArchive initState (t, ks) =
        some { initState with dts := initState.dts ++ [t], prev := some (ks, t) } :=
      processArchive_eq_none_prev initState (t, ks) rfl
    have hrun : runExtractor [(t, ks)] supp =
        some (addLoop (computeInter supp ks) t
          { initState with dts := initState.dts ++ [t], prev := some (ks, t) }) := by
      unfold runExtractor
      rw [show walkArchives [(t, ks)] =
        List.foldlM processArchive initState [(t, ks)] from rfl]
      simp only [List.foldlM_cons, List.foldlM_nil, hstep, Option.bind_eq_bind,
        Option.some_bind]
      rfl
    refine ⟨_, hrun, ?_, ?_⟩
    · obtain ⟨_, _, _, ⟨tail, hev, htail⟩, _, _⟩ :=
        addLoop_spec t (computeInter supp ks)
          { initState with dts := initState.dts ++ [t], prev := some (ks, t) }
      intro e he
      rw [hev] at he
      rcases List.mem_append.mp he with he | he
      · exact absurd he (List.not_mem_nil e)
      · exact (htail e he).1
    · constructor
      · intro hnil
        by_contra hne
        exact addLoop_events_ne_nil t (computeInter supp ks)
          { initState with dts := initState.dts ++ [t], prev := some (ks, t) }
          hne rfl hnil
      · intro hnil
        rw [hnil]
        rfl

/-- C6: over any run of the extractor, between any two `AddedEvent`s for the
same key in the emitted trace there is a `RevokedEvent` or `AutoRemovedEvent`
for that key: no key is added twice without an intervening removal. -/
theorem c6_no_double_add (snaps : List (Int × List TEK)) (supp : List TEK)
    (st : ExtState) (h : runExtractor snaps supp = some st) :
    ∀ (k : TEK) (p mid s : List Event) (e1 e2 : Event),
      st.events = p ++ e1 :: (mid ++ e2 :: s) →
      isAddOf k e1 = true → isAddOf k e2 = true →
      ∃ r ∈ mid, isRemovalOf k r = true :=
  (runExtractor_inv snaps supp st h).2.2.2

/-- Witness for C6: in a run where `tekA` is added, revoked, and re-added,
the theorem yields the intervening removal between the two adds. -/
theorem c6_no_double_add_witness :
    ∃ r ∈ [Event.RevokedEvent tekA 1200 0], isRemovalOf tekA r = true :=
  c6_no_double_add
    [(0, [tekA]), (600, [tekA]), (1200, []), (1800, [tekA]), (2400, [tekA])] [tekA]
    ⟨[tekA], [tekA], [(tekA, 1800), (tekA, 0)],
      [.AddedEvent tekA 0 false, .RevokedEvent tekA 1200 0, .AddedEvent tekA 1800 false],
      some ([tekA], 2400), [0, 600, 1200, 1800, 2400]⟩
    (by decide) tekA [] [Event.RevokedEvent tekA 1200 0] []
    (.AddedEvent tekA 0 false) (.AddedEvent tekA 1800 false)
    (by decide) (by decide) (by decide)

/-- C8: within one regular transition the events appended by the step are the
ADD-loop events followed by the departure-loop events — every `AddedEvent`
precedes every departure event — and no key appears both among the added and
among the departed subjects, because added keys come from the intersection
and departing keys are exactly those outside it. -/
theorem c8_adds_before_departures (st : ExtState) (snap : Int × List TEK)
    (pk : List TEK) (pdt : Int) (st' : ExtState)
    (hp : st.prev = some (pk, pdt))
    (h : processArchive st snap = some st') :
    ∃ adds deps, st'.events = st.events ++ adds ++ deps ∧
      (∀ e ∈ adds, e.isAdd = true) ∧
      (∀ e ∈ deps, e.isRemoval = true) ∧
      (∀ k : TEK, (∃ e ∈ adds, e.key = k) → ¬ ∃ e ∈ deps, e.key = k) := by
  rw [processArchive_eq_some_prev st snap pk pdt hp] at h
  cases hd : departureLoop (computeInter snap.2 pk) snap.1
      (addLoop (computeInter snap.2 pk) pdt { st with dts := st.dts ++ [snap.1] }) with
  | none => rw [hd] at h; exact absurd h (by simp)
  | some st3 =>
    rw [hd] at h
    injection h with h
    subst h
    obtain ⟨_, _, _, ⟨adds, hev2, hadds⟩, _, _⟩ :=
      addLoop_spec pdt (computeInter snap.2 pk) { st with dts := st.dts ++ [snap.1] }
    obtain ⟨_, _, _, deps, hev3, hdeps⟩ :=
      departureFold_ext (computeInter snap.2 pk) snap.1
        (addLoop (computeInter snap.2 pk) pdt { st with dts := st.dts ++ [snap.1] }).all_keys
        _ st3 hd
    refine ⟨adds, deps, ?_, ?_, ?_, ?_⟩
    · show st3.events = st.events ++ adds ++ deps
      rw [hev3, hev2]
    · exact fun e he => (hadds e he).1
    · exact fun e he => (hdeps e he).1
    · rintro k ⟨e, he, hke⟩ ⟨e', he', hke'⟩
      have h1 : e.key ∈ computeInter snap.2 pk := (hadds e he).2.1
      have h2 : e'.key ∉ computeInter snap.2 pk := (hdeps e' he').2
      rw [hke] at h1
      rw [hke'] at h2
      exact h2 h1

/-- Witness for C8: a concrete transition in which `tekA` is added and
nothing departs. -/
theorem c8_adds_before_departures_witness :
    ∃ adds deps,
      (⟨[tekA], [], [(tekA, 0)], [.AddedEvent tekA 0 false],
          some ([tekA], 600), [0, 600]⟩ : ExtState).events =
        (⟨[], [], [], [], some ([tekA], 0), [0]⟩ : ExtState).events ++ adds ++ deps ∧
      (∀ e ∈ adds, e.isAdd = true) ∧
      (∀ e ∈ deps, e.isRemoval = true) ∧
      (∀ k : TEK, (∃ e ∈ adds, e.key = k) → ¬ ∃ e ∈ deps, e.key = k) :=
  c8_adds_before_departures ⟨[], [], [], [], some ([tekA], 0), [0]⟩ (600, [tekA])
    [tekA] 0 ⟨[tekA], [], [(tekA, 0)], [.AddedEvent tekA 0 false], some ([tekA], 600), [0, 600]⟩
    (by decide) (by decide)

/-- C10: at every point of the walk every live key has a recorded
`added_when` timestamp, so the `added_when[key]` lookup of the departure loop
is always defined; consequently the extractor never fails on a nonempty
snapshot list. -/
theorem c10_added_when_total (snaps : List (Int × List TEK)) (supp : List TEK) :
    (∀ pre post : List (Int × List TEK), snaps = pre ++ post →
      ∀ st, List.foldlM processArchive initState pre = some st →
        ∀ k ∈ st.all_keys, (lookupWhen st.added_when k).isSome = true) ∧
    (snaps ≠ [] → (runExtractor snaps supp).isSome = true) := by
  constructor
  · intro pre post heq st hst k hk
    obtain ⟨st0, hw, hinv0⟩ := walk_inv pre initState initState_inv
    rw [hw] at hst
    injection hst with hst
    subst hst
    exact hinv0.2.1 k hk
  · exact runExtractor_isSome snaps supp

/-- Witness for C10: after the two-snapshot walk adding `tekA`, the live key
has a recorded timestamp, and the extractor run succeeds. -/
theorem c10_added_when_total_witness :
    (lookupWhen [(tekA, 0)] tekA).isSome = true ∧
    (runExtractor [(0, [tekA]), (600, [tekA])] [tekA]).isSome = true :=
  ⟨(c10_added_when_total [(0, [tekA]), (600, [tekA])] [tekA]).1
      [(0, [tekA]), (600, [tekA])] [] (by decide)
      ⟨[tekA], [], [(tekA, 0)], [.AddedEvent tekA 0 false], some ([tekA], 600), [0, 600]⟩
      (by decide) tekA (by decide),
    (c10_added_when_total [(0, [tekA]), (600, [tekA])] [tekA]).2 (by decide)⟩

/-! ### Lemmas about the aggregator -/

theorem foldl_append_count (f : Int → List Int) (b : Int) :
    ∀ (dts : List Int) (acc : List Int),
      (dts.foldl (fun a dt => a ++ f dt) acc).count b =
        acc.count b + (dts.map (fun dt => (f dt).count b)).sum := by
  intro dts
  induction dts with
  | nil => intro acc; simp
  | cons dt rest ih =>
    intro acc
    rw [List.foldl_cons, ih (acc ++ f dt), List.count_append, List.map_cons,
      List.sum_cons]
    omega

theorem count_daysCountIncs (events : List Event) (revoked_keys : List TEK)
    (dt b : Int) :
    (daysCountIncs events revoked_keys dt).count b =
      events.countP
        (fun e => (diagIncrement revoked_keys e == some b) && decide (e.dt = dt)) := by
  unfold daysCountIncs
  rw [List.count_filterMap, List.countP_filter]

theorem sum_map_add_nat (l : List Int) (f g : Int → Nat) :
    (l.map (fun x => f x + g x)).sum = (l.map f).sum + (l.map g).sum := by
  induction l with
  | nil => simp
  | cons x xs ih =>
    simp only [List.map_cons, List.sum_cons, ih]
    omega

theorem sum_indicator_count (a : Int) : ∀ l : List Int,
    (l.map (fun x => if a = x then 1 else 0)).sum = l.count a := by
  intro l
  induction l with
  | nil => simp
  | cons x xs ih =>
    rw [List.map_cons, List.sum_cons, ih, List.count_cons]
    by_cases h : a = x
    · rw [if_pos h, if_pos (by simp [h])]
      omega
    · rw [if_neg h, if_neg (by simp only [beq_iff_eq]; exact fun hxa => h hxa.symm)]
      omega

theorem sum_countP_dts (q : Event → Bool) (dts : List Int) :
    ∀ events : List Event,
      (dts.map (fun dt => events.countP (fun e => q e && decide (e.dt = dt)))).sum =
        (events.map (fun e => if q e = true then dts.count e.dt else 0)).sum := by
  intro events
  induction events with
  | nil => simp
  | cons e es ih =>
    simp only [List.countP_cons]
    rw [show (fun dt => es.countP (fun e' => q e' && decide (e'.dt = dt)) +
          if (q e && decide (e.dt = dt)) = true then 1 else 0) =
        (fun dt => es.countP (fun e' => q e' && decide (e'.dt = dt)) +
          if (q e && decide (e.dt = dt)) = true then 1 else 0) from rfl]
    rw [sum_map_add_nat dts
      (fun dt => es.countP (fun e' => q e' && decide (e'.dt = dt)))
      (fun dt => if (q e && decide (e.dt = dt)) = true then 1 else 0)]
    rw [ih, List.map_cons, List.sum_cons]
    have hB : (dts.map (fun dt => if (q e && decide (e.dt = dt)) = true then 1 else 0)).sum =
        if q e = true then dts.count e.dt else 0 := by
      by_cases hq : q e = true
      · rw [if_pos hq]
        simp only [hq, Bool.true_and, decide_eq_true_eq]
        exact sum_indicator_count e.dt dts
      · rw [if_neg hq]
        rw [Bool.not_eq_true] at hq
        simp [hq]
    rw [hB]
    omega

theorem count_totDaysCountIncs (events : List Event) (revoked_keys : List TEK)
    (dts : List Int) (b : Int) :
    totDaysCount events revoked_keys dts b =
      (dts.map (fun dt => (daysCountIncs events revoked_keys dt).count b)).sum := by
  unfold totDaysCount totDaysCountIncs
  rw [foldl_append_count]
  simp

theorem sum_if_count_eq_countP (q : Event → Bool) (dts : List Int) (h1 : dts.Nodup) :
    ∀ events : List Event, (∀ e ∈ events, q e = true → e.dt ∈ dts) →
      (events.map (fun e => if q e = true then dts.count e.dt else 0)).sum =
        events.countP q := by
  intro events
  induction events with
  | nil => intro _; simp
  | cons e es ih =>
    intro hcov
    rw [List.map_cons, List.sum_cons, List.countP_cons,
      ih (fun e' he' hq => hcov e' (List.mem_cons_of_mem _ he') hq)]
    by_cases hq : q e = true
    · rw [if_pos hq, if_pos hq,
        List.count_eq_one_of_mem h1 (hcov e (List.mem_cons_self _ _) hq)]
      omega
    · rw [if_neg hq, if_neg hq]
      omega

theorem diagIncrement_beq_eq (revoked_keys : List TEK) (b : Int) (e : Event) :
    (diagIncrement revoked_keys e == some b) =
      (match e with
        | .AddedEvent key _ _ =>
          decide (key.level = 5 ∧ key ∉ revoked_keys ∧ key.interval = b)
        | _ => false) := by
  cases e with
  | AddedEvent key d c =>
    dsimp only [diagIncrement]
    by_cases h5 : key.level = 5 ∧ key ∉ revoked_keys
    · rw [if_pos h5]
      by_cases hb : key.interval = b
      · simp [h5, hb]
      · simp [h5, hb]
    · rw [if_neg h5]
      have hn : ¬(key.level = 5 ∧ key ∉ revoked_keys ∧ key.interval = b) :=
        fun hc => h5 ⟨hc.1, hc.2.1⟩
      simp [hn]
  | RevokedEvent key d a => simp [diagIncrement]
  | AutoRemovedEvent key d a => simp [diagIncrement]

theorem diagIncrement_beq_isAdd (revoked_keys : List TEK) (b : Int) (e : Event)
    (h : (diagIncrement revoked_keys e == some b) = true) : e.isAdd = true := by
  cases e with
  | AddedEvent key d c => rfl
  | RevokedEvent key d a => simp [diagIncrement] at h
  | AutoRemovedEvent key d a => simp [diagIncrement] at h

theorem specDiagCount_eq_countP (events : List Event) (revoked_keys : List TEK)
    (b : Int) :
    specDiagCount events revoked_keys b =
      events.countP (fun e => diagIncrement revoked_keys e == some b) := by
  unfold specDiagCount
  rw [List.countP_eq_length_filter]
  congr 1
  apply List.filter_congr
  intro e _
  rw [diagIncrement_beq_eq]

theorem maxValues_eq_some (incs : List Int) (n : Nat) (h : maxValues incs = some n) :
    (∃ b ∈ incs, incs.count b = n) ∧ ∀ b : Int, incs.count b ≤ n := by
  unfold maxValues at h
  rw [List.max?_eq_some_iff (fun a => Nat.le_refl a) (fun a b => max_choice a b)
    (fun a b c => Nat.max_le)] at h
  obtain ⟨hmem, hub⟩ := h
  constructor
  · obtain ⟨b, hb, hcount⟩ := List.mem_map.mp hmem
    exact ⟨b, List.mem_dedup.mp hb, hcount⟩
  · intro b
    by_cases hmemb : b ∈ incs
    · exact hub _ (List.mem_map.mpr ⟨b, List.mem_dedup.mpr hmemb, rfl⟩)
    · rw [List.count_eq_zero_of_not_mem hmemb]
      exact Nat.zero_le n

/-- C3: for distinct snapshot timestamps covering every `AddedEvent`, the
bucket `tot_days_count[b]` equals the number of `AddedEvent`s whose key has
level 5, was never revoked in the run, and starts at interval `b`; and the
headline `max(tot_days_count.values())`, when defined, is the maximum of this
count over all buckets. -/
theorem c3_diag_tally (events : List Event) (revoked_keys : List TEK)
    (dts : List Int)
    (h1 : dts.Nodup)
    (h2 : ∀ e ∈ events, e.isAdd = true → e.dt ∈ dts) :
    (∀ b, totDaysCount events revoked_keys dts b = specDiagCount events revoked_keys b) ∧
    (∀ n, headline events revoked_keys dts = some n →
      (∃ b0, specDiagCount events revoked_keys b0 = n) ∧
      (∀ b0, specDiagCount events revoked_keys b0 ≤ n)) := by
  have hcount : ∀ b,
      totDaysCount events revoked_keys dts b = specDiagCount events revoked_keys b := by
    intro b
    rw [count_totDaysCountIncs]
    simp only [count_daysCountIncs]
    rw [sum_countP_dts (fun e => diagIncrement revoked_keys e == some b) dts events,
      sum_if_count_eq_countP (fun e => diagIncrement revoked_keys e == some b) dts h1
        events (fun e he hq => h2 e he (diagIncrement_beq_isAdd revoked_keys b e hq)),
      specDiagCount_eq_countP]
  refine ⟨hcount, ?_⟩
  intro n hn
  obtain ⟨⟨b0, _, hb0⟩, hub⟩ :=
    maxValues_eq_some (totDaysCountIncs events revoked_keys dts) n hn
  constructor
  · exact ⟨b0, (hcount b0).symm.trans hb0⟩
  · intro b0
    rw [← hcount b0]
    exact hub b0

/-- Witness for C3: a bucket holding a never-revoked level-5 key, a revoked
level-5 key and a level-2 key counts exactly 1, and the headline is 1. -/
theorem c3_diag_tally_witness :
    totDaysCount
      [.AddedEvent ⟨[11], 100, 5, 144⟩ 0 false,
       .AddedEvent ⟨[12], 100, 5, 144⟩ 0 false,
       .AddedEvent ⟨[13], 100, 2, 144⟩ 0 false]
      [⟨[12], 100, 5, 144⟩] [0] 100 = 1 :=
  ((c3_diag_tally
      [.AddedEvent ⟨[11], 100, 5, 144⟩ 0 false,
       .AddedEvent ⟨[12], 100, 5, 144⟩ 0 false,
       .AddedEvent ⟨[13], 100, 2, 144⟩ 0 false]
      [⟨[12], 100, 5, 144⟩] [0] (by decide) (by decide)).1 100).trans (by decide)

/-- C5 is false as stated: on a run whose only key has level 2 — so no
diagnosis bucket is ever touched — the extractor succeeds but the headline
computation `max(tot_days_count.values())` is applied to an empty collection
and fails (a `ValueError`), instead of reporting the count as zero. -/
theorem c5_zero_diag_counterexample :
    pipelineHeadline [(0, [tekC]), (600, [tekC])] [tekC] = some none ∧
    pipelineHeadline [(0, [tekC]), (600, [tekC])] [tekC] ≠ some (some 0) := by
  decide

/-- C5 (amended): when no event qualifies for the diagnosis tally, the
per-snapshot `At least N people diagnosed` line is skipped by the
`if days_count:` guard (no failure, but nothing is reported), while the final
headline `max(tot_days_count.values())` fails on the empty dict rather than
reporting zero. -/
theorem c5_zero_diag_amended (events : List Event) (revoked_keys : List TEK)
    (dts : List Int)
    (h : ∀ e ∈ events, diagIncrement revoked_keys e = none) :
    (∀ dt, perSnapshotDiagnosed events revoked_keys dt = none) ∧
    headline events revoked_keys dts = none := by
  have hdc : ∀ dt, daysCountIncs events revoked_keys dt = [] := by
    intro dt
    unfold daysCountIncs
    rw [List.filterMap_eq_nil_iff]
    intro e he
    exact h e (List.mem_filter.mp he).1
  constructor
  · intro dt
    unfold perSnapshotDiagnosed
    rw [hdc dt]
    simp
  · unfold headline
    have htot : totDaysCountIncs events revoked_keys dts = [] := by
      unfold totDaysCountIncs
      have haux : ∀ (l : List Int) (acc : List Int),
          (∀ dt, daysCountIncs events revoked_keys dt = []) →
          l.foldl (fun a dt => a ++ daysCountIncs events revoked_keys dt) acc = acc := by
        intro l
        induction l with
        | nil => intro acc _; rfl
        | cons dt rest ih =>
          intro acc hall
          rw [List.foldl_cons, hall dt, List.append_nil]
          exact ih acc hall
      exact haux dts [] hdc
    rw [htot]
    rfl

/-- Witness for the amended C5: a run containing one level-2 `AddedEvent`
reports nothing per snapshot and the headline fails. -/
theorem c5_zero_diag_amended_witness :
    (∀ dt, perSnapshotDiagnosed [.AddedEvent tekC 0 false] [] dt = none) ∧
    headline [.AddedEvent tekC 0 false] [] [0, 600] = none :=
  c5_zero_diag_amended [.AddedEvent tekC 0 false] [] [0, 600] (by decide)

/-! ### Lemmas about the sort order -/

theorem typeStr_lt_added_auto :
    ("<class \x27__main__.AddedEvent\x27>" : String) <
      "<class \x27__main__.AutoRemovedEvent\x27>" := by
  rw [String.lt_iff_toList_lt]
  decide

/-- C9: the displayed event list is sorted by the lexicographic key
`(e.dt, str(type(e)), e.key.level, e.key.dt)` and is a permutation of the
extracted events; under the textual tie-break on the variant name, an
`AddedEvent` sorts strictly before an `AutoRemovedEvent` carrying the same
timestamp. -/
theorem c9_sort_order (snaps : List (Int × List TEK)) (supp : List TEK)
    (es : List Event) (h : pipelineEvents snaps supp = some es) :
    es.Sorted eventLe ∧
    (∃ st, runExtractor snaps supp = some st ∧ es.Perm st.events) ∧
    (∀ (k1 k2 : TEK) (t : Int) (c : Bool) (a : Int),
      eventLe (.AddedEvent k1 t c) (.AutoRemovedEvent k2 t a) ∧
      ¬ eventLe (.AutoRemovedEvent k2 t a) (.AddedEvent k1 t c)) := by
  unfold pipelineEvents at h
  cases hr : runExtractor snaps supp with
  | none => rw [hr] at h; exact absurd h (by simp)
  | some st =>
    rw [hr] at h
    rw [Option.map_some'] at h
    injection h with h
    subst h
    refine ⟨List.sorted_insertionSort eventLe st.events,
      ⟨st, rfl, List.perm_insertionSort eventLe st.events⟩, ?_⟩
    intro k1 k2 t c a
    constructor
    · show eventSortKey (.AddedEvent k1 t c) ≤ eventSortKey (.AutoRemovedEvent k2 t a)
      unfold eventSortKey
      dsimp only [Event.dt, Event.typeStr, Event.key, TEK.dtSec]
      apply (Prod.Lex.le_iff _ _).mpr
      refine Or.inr ⟨rfl, ?_⟩
      apply (Prod.Lex.le_iff _ _).mpr
      exact Or.inl typeStr_lt_added_auto
    · intro hle
      have hle' : eventSortKey (.AutoRemovedEvent k2 t a) ≤
          eventSortKey (.AddedEvent k1 t c) := hle
      unfold eventSortKey at hle'
      dsimp only [Event.dt, Event.typeStr, Event.key, TEK.dtSec] at hle'
      rcases (Prod.Lex.le_iff _ _).mp hle' with hlt | ⟨_, hinner⟩
      · exact lt_irrefl t hlt
      · rcases (Prod.Lex.le_iff _ _).mp hinner with hslt | ⟨hseq, _⟩
        · exact absurd hslt (lt_asymm typeStr_lt_added_auto)
        · exact absurd hseq (ne_of_gt typeStr_lt_added_auto)

/-- Witness for C9 on a concrete run producing one event. -/
theorem c9_sort_order_witness :
    ([Event.AddedEvent tekA 0 false] : List Event).Sorted eventLe :=
  (c9_sort_order [(0, [tekA]), (600, [tekA])] [tekA]
    [.AddedEvent tekA 0 false] (by decide)).1
